import Mathlib

/-!
Verification of the row-to-document ingestion and query pipeline in
`src/utils/rag_utils.py` (helpers `_row_to_key`, `stable_id_from_row`,
`chunk_text`, the batched upserter `upsert_dataframe_as_docs`, and the
query helper `query_namespace`).

Modelling conventions, stated once:
  * A cell value is `Value` (string, integer, boolean, or the pandas
    missing marker NaN, written `Value.vNull`).  `str(v)` is `Value.toStr`;
    `str(nan)` is `"nan"`, `str(True)` is `"True"`, matching Python.
  * A dataframe is an ordered column list plus rows of values aligned with
    the columns; `row.get(c, default)` is an association lookup over
    `cols.zip vals`, `row.values` is the row's value list.
  * The MD5 digest is an uninterpreted parameter `hash : String → String`:
    every statement about identifiers is proved for an arbitrary digest
    function (adding injectivity as an explicit hypothesis where the claim
    requires distinctness).
  * `"sep".join(parts)` is `joinSep`, `text.strip()` is `pyStrip`,
    both structural translations of the Python semantics.
  * The Chroma collection handle and the embedding model are external
    collaborators: the upserter is modelled as the list of upsert calls it
    performs, each call being the batch of `(id, text, metadata)` documents
    handed to `coll.upsert` (the source keeps three parallel lists appended
    and cleared in lockstep; the model keeps the same data as one list of
    triples).  Embedding calls are one-to-one with upsert calls.
  * The query path is modelled over the outcomes of the two external calls
    (collection fetch succeeding or raising, the store query returning a
    result mapping or raising); `StoreResp` is the outcome of a call
    (`ok` value or `exn` for a raised exception).
-/

/-- A scalar cell value of the dataset: string, integer, boolean, or the
pandas missing marker (NaN). -/
inductive Value where
  | vStr (s : String)
  | vInt (n : Int)
  | vBool (b : Bool)
  | vNull
deriving DecidableEq, Repr

/-- Python `str(v)` on a cell value (`str(nan) = "nan"`). -/
def Value.toStr : Value → String
  | .vStr s => s
  | .vInt n => toString n
  | .vBool b => if b then "True" else "False"
  | .vNull => "nan"

/-- A document metadata mapping, in insertion order (Python dict built by a
comprehension over `meta_cols`, values `None` or a scalar). -/
abbrev Meta := List (String × Option Value)

/-- A tabular dataset: named columns and rows of values aligned with the
columns (pandas `DataFrame`; `df.iterrows` yields each row with the column
index). -/
structure DataFrame where
  cols : List String
  rows : List (List Value)
deriving DecidableEq, Repr

/-- `row.get(c, None)` — label lookup of column `c` in a row, `none` when the
column is absent. -/
def rowGet (cols : List String) (vals : List Value) (c : String) : Option Value :=
  (cols.zip vals).lookup c

/-- `pd.notna(x)` on an optional cell (`pd.notna(None)` and `pd.notna(nan)`
are false). -/
def pdNotna : Option Value → Bool
  | none => false
  | some .vNull => false
  | some _ => true

/-- `pd.isna(x)` on an optional cell. -/
def pdIsna (x : Option Value) : Bool := !pdNotna x

/-- `str(row.get(c, ""))` — stringified lookup with an empty-string default,
as used by `_row_to_key` on the id-column path. -/
def rowGetStrD (cols : List String) (vals : List Value) (c : String) : String :=
  match rowGet cols vals c with
  | some v => v.toStr
  | none => ""

/-- Python string joining with a separator, `"sep".join(parts)`. -/
def joinSep (sep : String) : List String → String
  | [] => ""
  | [p] => p
  | p :: ps => p ++ sep ++ joinSep sep ps

/-- Python `str.strip()` on the underlying character list: drop whitespace
from both ends. -/
def stripChars (l : List Char) : List Char :=
  ((l.dropWhile Char.isWhitespace).reverse.dropWhile Char.isWhitespace).reverse

/-- Python `text.strip()`. -/
def pyStrip (s : String) : String := String.mk (stripChars s.data)

/-- Recursion worker for `chunksOf`: each step emits `l.take n` and recurses
on `l.drop n`; a character budget makes the recursion structural.  For step
`n ≥ 1` (the only case the source evaluates — Python `range` with step 0
raises) a budget of `l.length` is never exhausted before the list is. -/
def chunksOfFuel (n : Nat) : Nat → List Char → List (List Char)
  | _, [] => []
  | 0, _ :: _ => []
  | fuel + 1, c :: cs => ((c :: cs).take n) :: chunksOfFuel n fuel ((c :: cs).drop n)

/-- The slices `text[i:i+n]` for `i in range(0, len(text), n)`. -/
def chunksOf (n : Nat) (l : List Char) : List (List Char) :=
  chunksOfFuel n l.length l

/-- `chunk_text(text, max_chars)` from `src/utils/rag_utils.py`: empty text
gives no chunks; otherwise the stripped text is returned whole when it fits,
or cut into windows of `max_chars` characters. -/
def chunk_text (text : String) (max_chars : Nat) : List String :=
  if text = "" then []
  else
    let t := pyStrip text
    if t.length ≤ max_chars then [t]
    else (chunksOf max_chars t.data).map String.mk

/-- Python truthiness of the optional `id_cols` argument (`if id_cols:` —
`None` and the empty list are both falsy). -/
def idColsTruthy : Option (List String) → Bool
  | none => false
  | some cs => !cs.isEmpty

/-- `_row_to_key(row, id_cols, chunk_index)` from `src/utils/rag_utils.py`:
join the stringified id-column values (or all row values when id columns are
not supplied), appending the chunk index when given. -/
def row_to_key (cols : List String) (vals : List Value)
    (id_cols : Option (List String)) (chunk_index : Option Nat) : String :=
  let parts :=
    if idColsTruthy id_cols then
      (id_cols.getD []).map (fun c => rowGetStrD cols vals c)
    else
      vals.map Value.toStr
  let parts2 :=
    match chunk_index with
    | some i => parts ++ [toString i]
    | none => parts
  joinSep "|" parts2

/-- `stable_id_from_row(row, id_cols, id_prefix)`: the caller-supplied
prefix concatenated with the digest of the row key. -/
def stable_id_from_row (hash : String → String) (cols : List String)
    (vals : List Value) (id_cols : Option (List String)) (pre : String) : String :=
  pre ++ hash (row_to_key cols vals id_cols none)

/-- The fallback key of the upsert loop when `id_cols` is falsy:
`"|".join(str(v) for v in row.values) + f"|chunk:{i}"`. -/
def fallbackKey (vals : List Value) (i : Nat) : String :=
  joinSep "|" (vals.map Value.toStr) ++ "|chunk:" ++ toString i

/-- A document handed to the vector store: identifier, chunk text, metadata.
(The embedding vector is computed by the external model from `text` and
carries no further information for these claims.) -/
structure Doc where
  id : String
  text : String
  meta : Meta
deriving DecidableEq, Repr

/-- The identifier derived from a row key on the id-column path of the
upsert loop: `doc_id = id_prefix + hashlib.md5(key.encode()).hexdigest()`
with `key = _row_to_key(row, id_cols=id_cols, chunk_index=chunk_index)`. -/
def derivedDocId (hash : String → String) (cols : List String) (vals : List Value)
    (id_cols : Option (List String)) (pre : String) (chunk_index : Option Nat) : String :=
  pre ++ hash (row_to_key cols vals id_cols chunk_index)

/-- The document id for chunk `i` of `nchunks` of a row, exactly as computed
in the upsert loop: the id-column key (with the chunk index only when the
row has more than one chunk) when `id_cols` is truthy, else the fallback key
over all row values with the explicit `chunk:i` marker. -/
def chunkDocId (hash : String → String) (cols : List String) (vals : List Value)
    (id_cols : Option (List String)) (pre : String) (i : Nat) (nchunks : Nat) : String :=
  if idColsTruthy id_cols then
    derivedDocId hash cols vals id_cols pre (if 1 < nchunks then some i else none)
  else
    pre ++ hash (fallbackKey vals i)

/-- The assembled document text of a row:
`" | ".join(str(row[c]) for c in text_cols if pd.notna(row.get(c, None)))`. -/
def rowText (cols : List String) (vals : List Value) (text_cols : List String) : String :=
  joinSep " | "
    ((text_cols.filter (fun c => pdNotna (rowGet cols vals c))).map
      (fun c => rowGetStrD cols vals c))

/-- The base metadata of a row:
`{k: (None if pd.isna(row.get(k, None)) else row.get(k, None)) for k in meta_cols}`. -/
def rowMeta (cols : List String) (vals : List Value) (meta_cols : List String) : Meta :=
  meta_cols.map (fun k =>
    (k, if pdIsna (rowGet cols vals k) then none else rowGet cols vals k))

/-- Python dict assignment `d[k] = v` on the ordered-mapping model: when
the key is already present its value is overwritten in place (keeping the
entry's position), otherwise the pair is appended at the end.  (A dict has
one entry per key; should the list carry duplicates of `k`, they all hold
the same value — `rowMeta` maps each key through one function — and are
overwritten alike, so lookups agree with the dict.) -/
def dictSet (d : Meta) (k : String) (v : Option Value) : Meta :=
  if (d.lookup k).isSome then
    d.map (fun p => if p.1 == k then (k, v) else p)
  else
    d ++ [(k, v)]

/-- The metadata written for chunk `i` of `nchunks` of a row: the row
projection, augmented by the dict assignments `meta["_chunk"] = i` and
`meta["_chunk_count"] = len(chunks)` when the row produced more than one
chunk (overwriting any same-named row column, as Python does). -/
def chunkMeta (cols : List String) (vals : List Value) (meta_cols : List String)
    (i nchunks : Nat) : Meta :=
  if 1 < nchunks then
    dictSet (dictSet (rowMeta cols vals meta_cols) "_chunk" (some (Value.vInt i)))
      "_chunk_count" (some (Value.vInt nchunks))
  else rowMeta cols vals meta_cols

/-- All documents produced by one row: assemble the text, chunk it
(substituting a single empty chunk when chunking yields none — Python
`chunk_text(...) or [""]`), then pair each chunk with its id and metadata,
the latter augmented with `_chunk` / `_chunk_count` only for multi-chunk
rows. -/
def rowDocs (hash : String → String) (cols : List String)
    (text_cols meta_cols : List String) (id_cols : Option (List String))
    (pre : String) (max_chars : Nat) (vals : List Value) : List Doc :=
  let text := rowText cols vals text_cols
  let chunks :=
    match chunk_text text max_chars with
    | [] => [""]
    | cs => cs
  chunks.enum.map (fun p =>
    { id := chunkDocId hash cols vals id_cols pre p.1 chunks.length
      text := p.2
      meta := chunkMeta cols vals meta_cols p.1 chunks.length })

/-- The column of values under name `c` (pandas `df[c]`). -/
def colValues (df : DataFrame) (c : String) : List Value :=
  df.rows.map (fun vals => (rowGet df.cols vals c).getD Value.vNull)

/-- Model of pandas ``df[c].dtype == "object"``: a column is object-typed
when it holds at least one string value. -/
def isObjectCol (df : DataFrame) (c : String) : Bool :=
  (colValues df c).any (fun v => match v with | .vStr _ => true | _ => false)

/-- Resolution of the `text_cols` argument: `None` means all columns, or only
the object-typed (string) columns when `auto_text_only`, falling back to all
columns when that selection is empty. -/
def resolveTextCols (df : DataFrame) (text_cols : Option (List String))
    (auto_text_only : Bool) : List String :=
  match text_cols with
  | some tc => tc
  | none =>
    if auto_text_only then
      let sc := df.cols.filter (fun c => isObjectCol df c)
      if sc.isEmpty then df.cols else sc
    else df.cols

/-- One upsert call: the batch of documents handed to `coll.upsert` (ids,
documents and metadatas are the three parallel lists of the source, kept in
lockstep). -/
abbrev UpsertCall := List Doc

/-- The batching loop over the per-row document lists: after each row, the
buffer (extended with the row's documents) is flushed in full once it holds
at least `batch_size` entries; returns the flushed calls and the final
buffer contents. -/
def processRows (batch_size : Nat) : List (List Doc) → List Doc →
    List UpsertCall × List Doc
  | [], buf => ([], buf)
  | rd :: rest, buf =>
    let buf2 := buf ++ rd
    if batch_size ≤ buf2.length then
      let r := processRows batch_size rest []
      (buf2 :: r.1, r.2)
    else
      processRows batch_size rest buf2

/-- The per-row document lists of a whole dataframe, in row order. -/
def rowDocLists (hash : String → String) (df : DataFrame)
    (text_cols meta_cols id_cols : Option (List String)) (pre : String)
    (max_chars : Nat) (auto_text_only : Bool) : List (List Doc) :=
  let tcols := resolveTextCols df text_cols auto_text_only
  let mcols := meta_cols.getD df.cols
  df.rows.map (rowDocs hash df.cols tcols mcols id_cols pre max_chars)

/-- `upsert_dataframe_as_docs` from `src/utils/rag_utils.py`, modelled as the
sequence of upsert calls performed: early return on a null or empty
dataframe, else the batching loop over the rows followed by the flush of any
non-empty remainder. -/
def upsert_dataframe_as_docs (hash : String → String) (df : Option DataFrame)
    (text_cols meta_cols id_cols : Option (List String)) (pre : String)
    (batch_size max_chars : Nat) (auto_text_only : Bool) : List UpsertCall :=
  match df with
  | none => []
  | some df =>
    if df.rows.length = 0 then []
    else
      let per := rowDocLists hash df text_cols meta_cols id_cols pre max_chars auto_text_only
      let r := processRows batch_size per []
      r.1 ++ (if r.2.isEmpty then [] else [r.2])

/-- Outcome of a call to an external collaborator: a returned value, or a
raised exception. -/
inductive StoreResp (α : Type) where
  | ok (val : α)
  | exn
deriving DecidableEq, Repr

/-- The result mapping returned by the store's query call: each key is
optionally present (`results.get` / `"ids" in results` in the source) and
holds one inner list per query (one query is issued).  Distances are left
at an arbitrary scalar type `δ`. -/
structure RawResults (δ : Type) where
  ids : Option (List (List String))
  documents : Option (List (List String))
  metadatas : Option (List (List Meta))
  distances : Option (List (List δ))
deriving DecidableEq

/-- One retrieval hit: `{"id", "text", "metadata", "distance"}`. -/
structure Hit (δ : Type) where
  id : Option String
  text : String
  metadata : Meta
  distance : Option δ
deriving DecidableEq

/-- `query_namespace` from `src/utils/rag_utils.py`, modelled over the
outcomes of its two external calls: `fetchOk` is whether
`get_collection(namespace)` succeeds (its exception is caught, returning
`[]`), and `qres` is the outcome of `coll.query(...)` (not guarded by the
`try` block, so its exception propagates).  The `[0]` projections assume the
store's contract of one inner list per query (outer list nonempty); missing
keys and short inner lists take the source's defaults.  The namespace, query
text, `k` and filter are inputs of the external calls only. -/
def query_namespace (δ : Type) (ns query_text : String) (k : Nat) (w : Option Meta)
    (fetchOk : Bool) (qres : StoreResp (RawResults δ)) : StoreResp (List (Hit δ)) :=
  if fetchOk = false then .ok []
  else
    match qres with
    | .exn => .exn
    | .ok results =>
      let docs := (results.documents.getD [[]]).headD []
      let metas := (results.metadatas.getD [[]]).headD []
      let ids : List (Option String) :=
        match results.ids with
        | some v => (v.headD []).map some
        | none => List.replicate docs.length none
      let dists : List (Option δ) :=
        match results.distances with
        | some v => (v.headD []).map some
        | none => List.replicate docs.length none
      .ok (docs.enum.map (fun p =>
        { id := ids.getD p.1 none
          text := p.2
          metadata := metas.getD p.1 []
          distance := dists.getD p.1 none }))

/-- Row atomicity of a sequence of upsert calls with respect to the
per-row document lists `per`: the calls are exactly the concatenations of a
partition of `per` into consecutive groups of whole rows (so no row's chunk
set is ever divided between two calls). -/
def rowsAtomic (per result : List (List Doc)) : Prop :=
  ∃ gs : List (List (List Doc)), gs.flatten = per ∧ result = gs.map List.flatten

/-! ## Helper lemmas -/

theorem strData_inj {a b : String} (h : a.data = b.data) : a = b :=
  congrArg String.mk h

theorem strData_append (a b : String) : (a ++ b).data = a.data ++ b.data := by
  cases a
  cases b
  rfl

theorem chunksOfFuel_congr (n : Nat) (hn : 0 < n) :
    ∀ (f1 f2 : Nat) (l : List Char), l.length ≤ f1 → l.length ≤ f2 →
      chunksOfFuel n f1 l = chunksOfFuel n f2 l := by
  intro f1
  induction f1 with
  | zero =>
    intro f2 l h1 h2
    have hl : l = [] := List.eq_nil_of_length_eq_zero (Nat.le_zero.mp h1)
    subst hl
    cases f2 <;> rfl
  | succ f1 ih =>
    intro f2 l h1 h2
    cases l with
    | nil => cases f2 <;> rfl
    | cons c cs =>
      cases f2 with
      | zero => simp at h2
      | succ f2 =>
        show ((c :: cs).take n) :: chunksOfFuel n f1 ((c :: cs).drop n) =
          ((c :: cs).take n) :: chunksOfFuel n f2 ((c :: cs).drop n)
        congr 1
        apply ih
        · simp only [List.length_drop, List.length_cons]
          simp only [List.length_cons] at h1
          omega
        · simp only [List.length_drop, List.length_cons]
          simp only [List.length_cons] at h2
          omega

theorem chunksOf_nil (n : Nat) : chunksOf n [] = [] := rfl

theorem chunksOf_cons (n : Nat) (hn : 0 < n) (l : List Char) (hl : l ≠ []) :
    chunksOf n l = l.take n :: chunksOf n (l.drop n) := by
  obtain ⟨c, cs, rfl⟩ := List.exists_cons_of_ne_nil hl
  show chunksOfFuel n (c :: cs).length (c :: cs) = _
  rw [List.length_cons]
  show ((c :: cs).take n) :: chunksOfFuel n cs.length ((c :: cs).drop n) = _
  congr 1
  apply chunksOfFuel_congr n hn
  · simp only [List.length_drop, List.length_cons]
    omega
  · exact Nat.le_refl _

theorem chunksOf_join (n : Nat) (hn : 0 < n) (l : List Char) :
    (chunksOf n l).flatten = l := by
  generalize hk : l.length = k
  induction k using Nat.strong_induction_on generalizing l with
  | _ k ih =>
    subst hk
    rcases eq_or_ne l [] with rfl | hl
    · rfl
    · have hpos : 0 < l.length := List.length_pos.mpr hl
      have hlt : (l.drop n).length < l.length := by
        rw [List.length_drop]
        omega
      rw [chunksOf_cons n hn l hl, List.flatten_cons, ih _ hlt (l.drop n) rfl,
        List.take_append_drop]

theorem chunksOf_length (n : Nat) (hn : 0 < n) (l : List Char) :
    (chunksOf n l).length = (l.length + n - 1) / n := by
  generalize hk : l.length = k
  induction k using Nat.strong_induction_on generalizing l with
  | _ k ih =>
    subst hk
    rcases eq_or_ne l [] with rfl | hl
    · rw [chunksOf_nil]
      simp only [List.length_nil]
      exact (Nat.div_eq_of_lt (by omega)).symm
    · have hpos : 0 < l.length := List.length_pos.mpr hl
      have hlt : (l.drop n).length < l.length := by
        rw [List.length_drop]
        omega
      rw [chunksOf_cons n hn l hl, List.length_cons, ih _ hlt (l.drop n) rfl,
        List.length_drop]
      rcases le_or_lt l.length n with hle | hgt
      · have e0 : l.length - n = 0 := by omega
        have e1 : (0 + n - 1) / n = 0 := Nat.div_eq_of_lt (by omega)
        have e2 : (l.length + n - 1) / n = 1 := by
          apply Nat.div_eq_of_lt_le
          · omega
          · omega
        rw [e0, e1, e2]
      · have e1 : l.length - n + n - 1 = l.length - 1 := by omega
        have e2 : l.length + n - 1 = (l.length - 1) + n := by omega
        rw [e1, e2, Nat.add_div_right _ hn]

theorem chunksOf_mem_length (n : Nat) (hn : 0 < n) (l : List Char) :
    ∀ c ∈ chunksOf n l, 0 < c.length ∧ c.length ≤ n := by
  generalize hk : l.length = k
  induction k using Nat.strong_induction_on generalizing l with
  | _ k ih =>
    subst hk
    rcases eq_or_ne l [] with rfl | hl
    · intro c hc
      rw [chunksOf_nil] at hc
      cases hc
    · have hpos : 0 < l.length := List.length_pos.mpr hl
      have hlt : (l.drop n).length < l.length := by
        rw [List.length_drop]
        omega
      rw [chunksOf_cons n hn l hl]
      intro c hc
      rcases List.mem_cons.mp hc with rfl | hc2
      · rw [List.length_take]
        omega
      · exact ih _ hlt (l.drop n) rfl c hc2

theorem chunksOf_dropLast_length (n : Nat) (hn : 0 < n) (l : List Char) :
    ∀ c ∈ (chunksOf n l).dropLast, c.length = n := by
  generalize hk : l.length = k
  induction k using Nat.strong_induction_on generalizing l with
  | _ k ih =>
    subst hk
    rcases eq_or_ne l [] with rfl | hl
    · intro c hc
      rw [chunksOf_nil] at hc
      cases hc
    · have hpos : 0 < l.length := List.length_pos.mpr hl
      have hlt : (l.drop n).length < l.length := by
        rw [List.length_drop]
        omega
      rw [chunksOf_cons n hn l hl]
      rcases eq_or_ne (l.drop n) [] with hd | hd
      · rw [hd, chunksOf_nil]
        intro c hc
        simp at hc
      · have hdl : n < l.length := by
          by_contra hcon
          push_neg at hcon
          exact hd (List.drop_eq_nil_of_le hcon)
        have hne : chunksOf n (l.drop n) ≠ [] := by
          rw [chunksOf_cons n hn _ hd]
          exact List.cons_ne_nil _ _
        rw [List.dropLast_cons_of_ne_nil hne]
        intro c hc
        rcases List.mem_cons.mp hc with rfl | hc2
        · rw [List.length_take]
          omega
        · exact ih _ hlt (l.drop n) rfl c hc2
theorem data_mk (cs : List Char) : (String.mk cs).data = cs := rfl

theorem stringJoin_data (cs : List String) :
    (String.join cs).data = (cs.map String.data).flatten := by
  have h : ∀ (cs : List String) (init : String),
      (List.foldl (fun r s => r ++ s) init cs).data =
        init.data ++ (cs.map String.data).flatten := by
    intro cs
    induction cs with
    | nil => intro init; simp
    | cons c cs ih =>
      intro init
      simp only [List.foldl_cons, List.map_cons, List.flatten_cons, ih,
        strData_append, List.append_assoc]
  have h2 := h cs ""
  simpa [String.join] using h2

theorem stripChars_all_whitespace (l : List Char) (h : ∀ c ∈ l, c.isWhitespace) :
    stripChars l = [] := by
  unfold stripChars
  rw [List.dropWhile_eq_nil_iff.mpr h]
  rfl

theorem chunk_text_join (text : String) (mc : Nat) (hmc : 0 < mc) :
    String.join (chunk_text text mc) = pyStrip text := by
  by_cases ht : text = ""
  · subst ht
    rfl
  · apply strData_inj
    rw [stringJoin_data]
    by_cases hlen : (pyStrip text).length ≤ mc
    · rw [show chunk_text text mc = [pyStrip text] by simp [chunk_text, ht, hlen]]
      simp
    · rw [show chunk_text text mc = (chunksOf mc (pyStrip text).data).map String.mk by
        simp [chunk_text, ht, hlen]]
      rw [List.map_map]
      have hid : String.data ∘ String.mk = id := rfl
      rw [hid, List.map_id]
      exact chunksOf_join mc hmc (pyStrip text).data

theorem chunk_text_ne_nil_of_ne_empty (text : String) (mc : Nat) (hmc : 0 < mc)
    (ht : text ≠ "") : chunk_text text mc ≠ [] := by
  by_cases hlen : (pyStrip text).length ≤ mc
  · rw [show chunk_text text mc = [pyStrip text] by simp [chunk_text, ht, hlen]]
    exact List.cons_ne_nil _ _
  · rw [show chunk_text text mc = (chunksOf mc (pyStrip text).data).map String.mk by
      simp [chunk_text, ht, hlen]]
    have hd : (pyStrip text).data ≠ [] := by
      intro h0
      have : (pyStrip text).length = 0 := by
        show (pyStrip text).data.length = 0
        rw [h0]
        rfl
      omega
    rw [chunksOf_cons mc hmc _ hd]
    simp

/-- C10: for every input string and positive `max_chars`, the chunks of
`chunk_text` concatenate to `text.strip()` (not to the original text);
the empty list is returned exactly for the genuinely empty string, and a
non-empty all-whitespace string yields the single empty-string chunk. -/
theorem chunk_text_strip_characterisation (text : String) (mc : Nat) (hmc : 0 < mc) :
    String.join (chunk_text text mc) = pyStrip text ∧
    (chunk_text text mc = [] ↔ text = "") ∧
    ((text ≠ "" ∧ ∀ c ∈ text.data, c.isWhitespace) → chunk_text text mc = [""]) := by
  refine ⟨chunk_text_join text mc hmc, ⟨?_, ?_⟩, ?_⟩
  · intro h
    by_contra ht
    exact chunk_text_ne_nil_of_ne_empty text mc hmc ht h
  · intro h
    subst h
    rfl
  · rintro ⟨ht, hws⟩
    have hstrip : pyStrip text = "" := by
      unfold pyStrip
      rw [stripChars_all_whitespace _ hws]
    have hlen : (pyStrip text).length ≤ mc := by
      rw [hstrip]
      exact Nat.zero_le mc
    rw [show chunk_text text mc = [pyStrip text] by simp [chunk_text, ht, hlen], hstrip]

/-- C10 witness: concrete instantiation of the strip characterisation. -/
theorem chunk_text_strip_characterisation_witness :
    (0 < 3) ∧ String.join (chunk_text "  " 3) = pyStrip "  " ∧ chunk_text "  " 3 = [""] := by
  have h := chunk_text_strip_characterisation "  " 3 (by decide)
  exact ⟨by decide, h.1, h.2.2 ⟨by decide, by decide⟩⟩

/-- C2 counterexample: for `text = " a"` (length 2 ≤ 5), `chunk_text` does
not return one chunk containing the full original text, and the chunks do
not concatenate to the original input (leading whitespace is stripped). -/
theorem chunk_text_counterexample :
    (" a").length ≤ 5 ∧ chunk_text " a" 5 ≠ [" a"] ∧
    String.join (chunk_text " a" 5) ≠ " a" := by
  decide

/-- C2 amended: with the stripped text `t = text.strip()` in place of the
original input: empty input yields no chunks; non-empty input with
`len(t) ≤ max_chars` yields the single chunk `t`; otherwise `chunk_text`
yields exactly ⌈len(t)/max_chars⌉ contiguous chunks concatenating to `t`,
each of length exactly `max_chars` except possibly a shorter (non-empty)
final one. -/
theorem chunk_text_amended (text : String) (mc : Nat) (hmc : 0 < mc) :
    (text = "" → chunk_text text mc = []) ∧
    (text ≠ "" → (pyStrip text).length ≤ mc → chunk_text text mc = [pyStrip text]) ∧
    (mc < (pyStrip text).length →
      (chunk_text text mc).length = ((pyStrip text).length + mc - 1) / mc ∧
      String.join (chunk_text text mc) = pyStrip text ∧
      (∀ c ∈ (chunk_text text mc).dropLast, c.length = mc) ∧
      (∀ c ∈ chunk_text text mc, 0 < c.length ∧ c.length ≤ mc)) := by
  refine ⟨?_, ?_, ?_⟩
  · intro h
    subst h
    rfl
  · intro ht hlen
    simp [chunk_text, ht, hlen]
  · intro hgt
    have ht : text ≠ "" := by
      intro h0
      subst h0
      simp [pyStrip, stripChars] at hgt
    have hlen : ¬ (pyStrip text).length ≤ mc := by omega
    have hform : chunk_text text mc = (chunksOf mc (pyStrip text).data).map String.mk := by
      simp [chunk_text, ht, hlen]
    refine ⟨?_, chunk_text_join text mc hmc, ?_, ?_⟩
    · rw [hform, List.length_map, chunksOf_length mc hmc]
      rfl
    · intro c hc
      rw [hform, ← List.map_dropLast] at hc
      obtain ⟨c0, hc0, rfl⟩ := List.mem_map.mp hc
      exact chunksOf_dropLast_length mc hmc _ c0 hc0
    · intro c hc
      rw [hform] at hc
      obtain ⟨c0, hc0, rfl⟩ := List.mem_map.mp hc
      exact chunksOf_mem_length mc hmc _ c0 hc0

/-- C2 witness: concrete instantiation of the amended chunking contract. -/
theorem chunk_text_amended_witness :
    (0 < 2) ∧ (2 < (pyStrip "abcde").length) ∧
    (chunk_text "abcde" 2).length = ((pyStrip "abcde").length + 2 - 1) / 2 ∧
    String.join (chunk_text "abcde" 2) = pyStrip "abcde" := by
  have h := (chunk_text_amended "abcde" 2 (by decide)).2.2 (by decide)
  exact ⟨by decide, by decide, h.1, h.2.1⟩

/-- C6: a null dataset or a dataset with zero rows performs zero embedding
calls and zero upsert writes (no upsert call is issued) and returns
normally. -/
theorem upsert_empty_noop (hash : String → String)
    (text_cols meta_cols id_cols : Option (List String)) (pre : String)
    (batch_size max_chars : Nat) (auto : Bool) (df : Option DataFrame)
    (h : df = none ∨ ∃ d, df = some d ∧ d.rows = []) :
    upsert_dataframe_as_docs hash df text_cols meta_cols id_cols pre
      batch_size max_chars auto = [] := by
  rcases h with rfl | ⟨d, rfl, hd⟩
  · rfl
  · simp [upsert_dataframe_as_docs, hd]

/-- C6 witness: a concrete zero-row dataset is a no-op. -/
theorem upsert_empty_noop_witness :
    upsert_dataframe_as_docs (fun s => s) (some ⟨["a"], []⟩) none none none ""
      64 1500 false = [] :=
  upsert_empty_noop _ _ _ _ _ _ _ _ _ (Or.inr ⟨_, rfl, rfl⟩)

/-- C8: the example scenario — one row `{"id": "1", "text": "hello world",
"score": 5}` with `id_cols=["id"]`, `id_prefix="x-"`, `max_chars=1500` and
default text/metadata columns yields exactly one document with text
`"1 | hello world | 5"`, id `"x-" ++ md5("1")` (no chunk index in the key),
and metadata with exactly the three row columns and no `_chunk` or
`_chunk_count` keys. -/
theorem upsert_example_scenario (hash : String → String) :
    upsert_dataframe_as_docs hash
      (some ⟨["id", "text", "score"], [[.vStr "1", .vStr "hello world", .vInt 5]]⟩)
      none none (some ["id"]) "x-" 64 1500 false =
    [[{ id := "x-" ++ hash "1"
        text := "1 | hello world | 5"
        meta := [("id", some (.vStr "1")), ("text", some (.vStr "hello world")),
          ("score", some (.vInt 5))] }]] := by
  rfl

/-- C1 counterexample: for the EMPTY list of id columns (a legitimate
"fixed list of id columns", falsy in the source, which then falls back to
hashing all row values), two rows that vacuously agree on every id-column
value nevertheless receive different identifiers. -/
theorem derivedDocId_empty_idcols_counterexample :
    (∀ c ∈ ([] : List String),
      rowGet ["a"] [.vStr "x"] c = rowGet ["a"] [.vStr "y"] c) ∧
    derivedDocId (fun s => s) ["a"] [.vStr "x"] (some []) "" none ≠
      derivedDocId (fun s => s) ["a"] [.vStr "y"] (some []) "" none := by
  constructor
  · intro c hc
    cases hc
  · decide

/-- C1 amended: for every fixed NONEMPTY id-column list and fixed optional
chunk index, the derived identifier is a pure function of the id-column
values — two rows agreeing on every id-column value (over arbitrary,
possibly different, other columns) receive the same identifier for any
digest function. -/
theorem derivedDocId_pure_function_of_id_cols (hash : String → String)
    (cols1 cols2 : List String) (vals1 vals2 : List Value) (idCols : List String)
    (ci : Option Nat) (pre : String) (hne : idCols ≠ [])
    (hagree : ∀ c ∈ idCols, rowGet cols1 vals1 c = rowGet cols2 vals2 c) :
    derivedDocId hash cols1 vals1 (some idCols) pre ci =
      derivedDocId hash cols2 vals2 (some idCols) pre ci := by
  have hmap : idCols.map (fun c => rowGetStrD cols1 vals1 c) =
      idCols.map (fun c => rowGetStrD cols2 vals2 c) := by
    apply List.map_congr_left
    intro c hc
    unfold rowGetStrD
    rw [hagree c hc]
  unfold derivedDocId
  congr 1
  unfold row_to_key
  have ht : idColsTruthy (some idCols) = true := by
    simp [idColsTruthy, hne]
  rw [ht]
  cases ci <;> simp only [Option.getD_some] <;> rw [hmap] <;> simp

/-- C1 witness: two rows agreeing on the id column but differing in, and
even adding/removing, other columns receive the same identifier. -/
theorem derivedDocId_pure_function_witness :
    (["id"] ≠ ([] : List String)) ∧
    derivedDocId (fun s => s) ["id", "x"] [.vStr "1", .vStr "a"] (some ["id"])
        "p-" (some 2) =
      derivedDocId (fun s => s) ["id"] [.vStr "1"] (some ["id"]) "p-" (some 2) :=
  ⟨by decide,
    derivedDocId_pure_function_of_id_cols (fun s => s) ["id", "x"] ["id"]
      [.vStr "1", .vStr "a"] [.vStr "1"] ["id"] (some 2) "p-" (by decide)
      (by decide)⟩

theorem joinSep_data_cons (x y : String) (ys : List String) :
    (joinSep "|" (x :: y :: ys)).data = x.data ++ '|' :: (joinSep "|" (y :: ys)).data := by
  show (x ++ "|" ++ joinSep "|" (y :: ys)).data = _
  rw [strData_append, strData_append]
  simp

theorem split_at_sep : ∀ (a b u v : List Char), '|' ∉ a → '|' ∉ b →
    a ++ '|' :: u = b ++ '|' :: v → a = b ∧ u = v := by
  intro a
  induction a with
  | nil =>
    intro b u v ha hb h
    cases b with
    | nil =>
      simp only [List.nil_append, List.cons.injEq] at h
      exact ⟨rfl, h.2⟩
    | cons c cs =>
      simp only [List.nil_append, List.cons_append, List.cons.injEq] at h
      exact absurd (show ('|' : Char) ∈ c :: cs by
        rw [h.1]; exact List.mem_cons_self c cs) hb
  | cons c cs ih =>
    intro b u v ha hb h
    cases b with
    | nil =>
      simp only [List.cons_append, List.nil_append, List.cons.injEq] at h
      exact absurd (show ('|' : Char) ∈ c :: cs by
        rw [← h.1]; exact List.mem_cons_self c cs) ha
    | cons d ds =>
      simp only [List.cons_append, List.cons.injEq] at h
      obtain ⟨hcd, h2⟩ := h
      have ha2 : ('|' : Char) ∉ cs := fun hx => ha (List.mem_cons_of_mem _ hx)
      have hb2 : ('|' : Char) ∉ ds := fun hx => hb (List.mem_cons_of_mem _ hx)
      obtain ⟨he, hu⟩ := ih ds u v ha2 hb2 h2
      exact ⟨by rw [hcd, he], hu⟩

theorem joinSep_pipe_inj : ∀ (xs ys : List String), xs.length = ys.length →
    (∀ x ∈ xs, ('|' : Char) ∉ x.data) → (∀ y ∈ ys, ('|' : Char) ∉ y.data) →
    joinSep "|" xs = joinSep "|" ys → xs = ys := by
  intro xs
  induction xs with
  | nil =>
    intro ys hlen _ _ _
    cases ys with
    | nil => rfl
    | cons y ys => simp at hlen
  | cons x xs ih =>
    intro ys hlen hx hy h
    cases ys with
    | nil => simp at hlen
    | cons y ys =>
      cases xs with
      | nil =>
        cases ys with
        | nil =>
          have : x = y := h
          rw [this]
        | cons y2 ys2 => simp at hlen
      | cons x2 xs2 =>
        cases ys with
        | nil => simp at hlen
        | cons y2 ys2 =>
          have hdata := congrArg String.data h
          rw [joinSep_data_cons, joinSep_data_cons] at hdata
          obtain ⟨h1, h2⟩ := split_at_sep x.data y.data _ _
            (hx x (List.mem_cons_self _ _)) (hy y (List.mem_cons_self _ _)) hdata
          have hxy : x = y := strData_inj h1
          have hrest : joinSep "|" (x2 :: xs2) = joinSep "|" (y2 :: ys2) :=
            strData_inj h2
          have hlen2 : (x2 :: xs2).length = (y2 :: ys2).length := by
            simpa using hlen
          have htail := ih (y2 :: ys2) hlen2
            (fun a ha => hx a (List.mem_cons_of_mem _ ha))
            (fun a ha => hy a (List.mem_cons_of_mem _ ha)) hrest
          rw [hxy, htail]

/-- C4 counterexample: with `id_cols=None`, two DISTINCT rows with identical
text-column values that differ (only) in non-text columns can receive the
SAME document id, because joining the stringified values with `"|"` is not
injective when a value itself contains the separator: both fallback keys
are `"T|x|y|z|chunk:0"`. -/
theorem fallback_id_collision_counterexample :
    ([Value.vStr "T", Value.vStr "x|y", Value.vStr "z"] ≠
      [Value.vStr "T", Value.vStr "x", Value.vStr "y|z"]) ∧
    rowGet ["t", "a", "b"] [Value.vStr "T", Value.vStr "x|y", Value.vStr "z"] "t" =
      rowGet ["t", "a", "b"] [Value.vStr "T", Value.vStr "x", Value.vStr "y|z"] "t" ∧
    fallbackKey [Value.vStr "T", Value.vStr "x|y", Value.vStr "z"] 0 =
      fallbackKey [Value.vStr "T", Value.vStr "x", Value.vStr "y|z"] 0 ∧
    (upsert_dataframe_as_docs (fun s => s)
        (some ⟨["t", "a", "b"],
          [[Value.vStr "T", Value.vStr "x|y", Value.vStr "z"],
           [Value.vStr "T", Value.vStr "x", Value.vStr "y|z"]]⟩)
        (some ["t"]) none none "" 64 1500 false).flatten.map Doc.id =
      ["T|x|y|z|chunk:0", "T|x|y|z|chunk:0"] := by
  decide

/-- C4 amended: on the fallback path (`id_cols` falsy), two rows of equal
width whose stringified value lists differ, PROVIDED no stringified value
contains the `'|'` separator and the digest is injective, receive different
document ids for the same chunk index (the fallback key includes all column
values plus the `chunk:<i>` marker). -/
theorem fallback_distinct_ids_amended (hash : String → String)
    (hinj : Function.Injective hash) (cols1 cols2 : List String)
    (vals1 vals2 : List Value) (pre : String) (i n1 n2 : Nat)
    (hlen : vals1.length = vals2.length)
    (hp1 : ∀ v ∈ vals1, ('|' : Char) ∉ v.toStr.data)
    (hp2 : ∀ v ∈ vals2, ('|' : Char) ∉ v.toStr.data)
    (hne : vals1.map Value.toStr ≠ vals2.map Value.toStr) :
    chunkDocId hash cols1 vals1 none pre i n1 ≠
      chunkDocId hash cols2 vals2 none pre i n2 := by
  intro h
  unfold chunkDocId at h
  simp only [idColsTruthy, Bool.false_eq_true, if_false] at h
  have h2 : hash (fallbackKey vals1 i) = hash (fallbackKey vals2 i) := by
    have hd := congrArg String.data h
    rw [strData_append, strData_append] at hd
    exact strData_inj (List.append_cancel_left hd)
  have h3 : fallbackKey vals1 i = fallbackKey vals2 i := hinj h2
  unfold fallbackKey at h3
  have hd := congrArg String.data h3
  rw [strData_append, strData_append, strData_append, strData_append] at hd
  have hj : (joinSep "|" (vals1.map Value.toStr)).data =
      (joinSep "|" (vals2.map Value.toStr)).data :=
    List.append_cancel_right (List.append_cancel_right hd)
  have hjs : joinSep "|" (vals1.map Value.toStr) = joinSep "|" (vals2.map Value.toStr) :=
    strData_inj hj
  apply hne
  apply joinSep_pipe_inj _ _ (by simp [hlen]) ?_ ?_ hjs
  · intro x hx
    obtain ⟨v, hv, rfl⟩ := List.mem_map.mp hx
    exact hp1 v hv
  · intro x hx
    obtain ⟨v, hv, rfl⟩ := List.mem_map.mp hx
    exact hp2 v hv

/-- C4 witness: concrete distinct single-column rows with pipe-free values
receive different fallback ids. -/
theorem fallback_distinct_ids_witness :
    chunkDocId (fun s => s) [] [Value.vStr "a"] none "p-" 0 1 ≠
      chunkDocId (fun s => s) [] [Value.vStr "b"] none "p-" 0 1 :=
  fallback_distinct_ids_amended (fun s => s) (fun a b h => h) [] []
    [Value.vStr "a"] [Value.vStr "b"] "p-" 0 1 1 rfl (by decide) (by decide)
    (by decide)

theorem lookup_map_pair {β : Type} (f : String → β) :
    ∀ (ks : List String) (k : String), k ∈ ks →
      (ks.map (fun k2 => (k2, f k2))).lookup k = some (f k) := by
  intro ks
  induction ks with
  | nil =>
    intro k hk
    cases hk
  | cons a as ih =>
    intro k hk
    by_cases hak : k = a
    · subst hak
      simp [List.lookup]
    · have hmem : k ∈ as := by
        rcases List.mem_cons.mp hk with rfl | hmem
        · exact absurd rfl hak
        · exact hmem
      have hbeq : (k == a) = false := beq_eq_false_iff_ne.mpr hak
      simp [List.lookup, hbeq]
      exact ih k hmem

theorem lookup_map_overwrite_ne (d : Meta) (k k2 : String) (v : Option Value)
    (hne : k ≠ k2) :
    (d.map (fun p => if p.1 == k2 then (k2, v) else p)).lookup k = d.lookup k := by
  induction d with
  | nil => rfl
  | cons a d ih =>
    obtain ⟨ka, va⟩ := a
    by_cases hk : ka = k2
    · subst hk
      have hh : (if ((ka, va).1 == ka) then (ka, v) else (ka, va)) = (ka, v) := by
        simp
      rw [List.map_cons, hh, List.lookup_cons, List.lookup_cons,
        beq_eq_false_iff_ne.mpr hne]
      exact ih
    · have hh : (if ((ka, va).1 == k2) then (k2, v) else (ka, va)) = (ka, va) := by
        simp [beq_eq_false_iff_ne.mpr hk]
      rw [List.map_cons, hh, List.lookup_cons, List.lookup_cons]
      cases hbeq : k == ka
      · exact ih
      · rfl

theorem dictSet_lookup_ne (d : Meta) (k k2 : String) (v : Option Value)
    (hne : k ≠ k2) : (dictSet d k2 v).lookup k = d.lookup k := by
  unfold dictSet
  split
  · exact lookup_map_overwrite_ne d k k2 v hne
  · rw [List.lookup_append]
    have h2 : ([(k2, v)] : Meta).lookup k = none := by
      have hbeq : (k == k2) = false := beq_eq_false_iff_ne.mpr hne
      simp [List.lookup, hbeq]
    rw [h2]
    cases d.lookup k <;> rfl

theorem chunkMeta_lookup_ne (cols : List String) (vals : List Value)
    (meta_cols : List String) (i nchunks : Nat) (k : String)
    (hk1 : k ≠ "_chunk") (hk2 : k ≠ "_chunk_count") :
    (chunkMeta cols vals meta_cols i nchunks).lookup k =
      (rowMeta cols vals meta_cols).lookup k := by
  unfold chunkMeta
  split
  · rw [dictSet_lookup_ne _ _ _ _ hk2, dictSet_lookup_ne _ _ _ _ hk1]
  · rfl

/-- C7 counterexample: for a dataframe column literally named `_chunk`
holding a missing (NaN) cell, on a multi-chunk row the dict assignment
`meta["_chunk"] = i` OVERWRITES the projected null, so the key appears in
every produced document mapped to the chunk index — not to the explicit
null the claim promises. -/
theorem meta_chunk_overwrite_counterexample :
    pdIsna (rowGet ["_chunk", "t"] [Value.vNull, Value.vStr "abc"] "_chunk") = true ∧
    ("_chunk" ∈ ["_chunk", "t"]) ∧
    (rowDocs (fun s => s) ["_chunk", "t"] ["_chunk", "t"] ["_chunk", "t"] none "" 1
        [Value.vNull, Value.vStr "abc"]).map (fun d => d.meta.lookup "_chunk") =
      [some (some (Value.vInt 0)), some (some (Value.vInt 1)),
        some (some (Value.vInt 2))] := by
  decide

/-- C7 amended: for every metadata column whose name is not one of the
reserved augmentation keys `_chunk` / `_chunk_count`, a missing (NaN) cell
appears in the metadata as its key mapped to an explicit null (the key is
never omitted) — both in the metadata projection and in every document the
row produces — while missing text-column cells are filtered out of the
assembled text entirely (removing them from the text-column list does not
change the text, so no stray separator appears for them).  (A column named
`_chunk` or `_chunk_count` is instead overwritten by the chunk augmentation
on multi-chunk rows.) -/
theorem missing_value_handling_amended (hash : String → String)
    (cols : List String) (vals : List Value) (text_cols meta_cols : List String)
    (id_cols : Option (List String)) (pre : String) (max_chars : Nat)
    (k : String) (hk : k ∈ meta_cols) (hk1 : k ≠ "_chunk")
    (hk2 : k ≠ "_chunk_count") :
    ((rowMeta cols vals meta_cols).lookup k =
      some (if pdIsna (rowGet cols vals k) then none else rowGet cols vals k)) ∧
    (∀ d ∈ rowDocs hash cols text_cols meta_cols id_cols pre max_chars vals,
      d.meta.lookup k =
        some (if pdIsna (rowGet cols vals k) then none else rowGet cols vals k)) ∧
    rowText cols vals text_cols =
      rowText cols vals (text_cols.filter (fun c => pdNotna (rowGet cols vals c))) := by
  have h1 : (rowMeta cols vals meta_cols).lookup k =
      some (if pdIsna (rowGet cols vals k) then none else rowGet cols vals k) :=
    lookup_map_pair _ meta_cols k hk
  refine ⟨h1, ?_, ?_⟩
  · intro d hd
    unfold rowDocs at hd
    obtain ⟨p, hp, rfl⟩ := List.mem_map.mp hd
    exact (chunkMeta_lookup_ne cols vals meta_cols p.1 _ k hk1 hk2).trans h1
  · unfold rowText
    rw [List.filter_filter]
    simp [Bool.and_self]

/-- C7 witness: a concrete row with a null metadata/text cell in an
ordinary (non-reserved) column. -/
theorem missing_value_handling_amended_witness :
    ("b" ∈ ["a", "b", "c"]) ∧ ("b" ≠ "_chunk") ∧ ("b" ≠ "_chunk_count") ∧
    (rowMeta ["a", "b", "c"] [.vStr "x", .vNull, .vStr "y"] ["a", "b", "c"]).lookup "b" =
      some (if pdIsna (rowGet ["a", "b", "c"] [.vStr "x", .vNull, .vStr "y"] "b")
        then none else rowGet ["a", "b", "c"] [.vStr "x", .vNull, .vStr "y"] "b") ∧
    (∀ d ∈ rowDocs (fun s => s) ["a", "b", "c"] ["a", "b", "c"] ["a", "b", "c"]
        none "" 1500 [.vStr "x", .vNull, .vStr "y"],
      d.meta.lookup "b" =
        some (if pdIsna (rowGet ["a", "b", "c"] [.vStr "x", .vNull, .vStr "y"] "b")
          then none else rowGet ["a", "b", "c"] [.vStr "x", .vNull, .vStr "y"] "b")) ∧
    rowText ["a", "b", "c"] [.vStr "x", .vNull, .vStr "y"] ["a", "b", "c"] =
      rowText ["a", "b", "c"] [.vStr "x", .vNull, .vStr "y"]
        (["a", "b", "c"].filter
          (fun c => pdNotna (rowGet ["a", "b", "c"] [.vStr "x", .vNull, .vStr "y"] c))) := by
  have h := missing_value_handling_amended (fun s => s) ["a", "b", "c"]
    [.vStr "x", .vNull, .vStr "y"] ["a", "b", "c"] ["a", "b", "c"] none "" 1500
    "b" (by decide) (by decide) (by decide)
  exact ⟨by decide, by decide, by decide, h.1, h.2.1, h.2.2⟩

/-- C3 counterexample: a dataset producing exactly 5 chunks in total (one
row of 9 characters chunked at `max_chars=2`) with `batch_size=2` triggers
exactly ONE upsert call, of size 5 — not 3 calls of sizes 2, 2, 1: the
buffer is only examined after a whole row has been appended, and is then
flushed in full. -/
theorem batch_boundary_counterexample :
    ((rowDocLists (fun s => s) ⟨["t"], [[.vStr "abcdefghi"]]⟩ none none none ""
        2 false).map List.length).sum = 5 ∧
    (upsert_dataframe_as_docs (fun s => s) (some ⟨["t"], [[.vStr "abcdefghi"]]⟩)
        none none none "" 2 2 false).map List.length = [5] := by
  decide

/-- C3 amended: for a dataset of 5 rows each producing exactly one chunk,
`batch_size=2` yields exactly 3 upsert calls of sizes 2, 2, 1 in that
order, writing all 5 documents; in general the buffer is examined after
each ROW and flushed in full (possibly exceeding `batch_size` when a row
produced several chunks) once it holds at least `batch_size` entries, is
cleared after each flush, and any non-empty remainder is flushed at the
end. -/
theorem batch_boundary_amended (hash : String → String) (df : DataFrame)
    (text_cols meta_cols id_cols : Option (List String)) (pre : String)
    (max_chars : Nat) (auto : Bool) (d1 d2 d3 d4 d5 : Doc)
    (hper : rowDocLists hash df text_cols meta_cols id_cols pre max_chars auto =
      [[d1], [d2], [d3], [d4], [d5]]) :
    upsert_dataframe_as_docs hash (some df) text_cols meta_cols id_cols pre
      2 max_chars auto = [[d1, d2], [d3, d4], [d5]] := by
  have hrows : df.rows.length = 5 := by
    have h5 := congrArg List.length hper
    simpa [rowDocLists] using h5
  simp [upsert_dataframe_as_docs, hrows, hper, processRows]

/-- C3 witness: five concrete one-chunk rows upserted with `batch_size=2`
produce the batches of sizes 2, 2, 1. -/
theorem batch_boundary_amended_witness :
    upsert_dataframe_as_docs (fun s => s)
      (some ⟨["t"], [[.vStr "a"], [.vStr "b"], [.vStr "c"], [.vStr "d"], [.vStr "e"]]⟩)
      none none none "" 2 1500 false =
    [[⟨"a|chunk:0", "a", [("t", some (.vStr "a"))]⟩,
      ⟨"b|chunk:0", "b", [("t", some (.vStr "b"))]⟩],
     [⟨"c|chunk:0", "c", [("t", some (.vStr "c"))]⟩,
      ⟨"d|chunk:0", "d", [("t", some (.vStr "d"))]⟩],
     [⟨"e|chunk:0", "e", [("t", some (.vStr "e"))]⟩]] :=
  batch_boundary_amended (fun s => s) _ none none none "" 1500 false
    _ _ _ _ _ (by decide)

theorem rowDocs_ne_nil (hash : String → String) (cols : List String)
    (text_cols meta_cols : List String) (id_cols : Option (List String))
    (pre : String) (max_chars : Nat) (vals : List Value) :
    rowDocs hash cols text_cols meta_cols id_cols pre max_chars vals ≠ [] := by
  unfold rowDocs
  cases hct : chunk_text (rowText cols vals text_cols) max_chars with
  | nil => simp [hct]
  | cons c cs => simp [hct]

theorem processRows_partition (bs : Nat) :
    ∀ (per : List (List Doc)) (buf : List Doc),
      ∃ (gs : List (List (List Doc))) (rest : List (List Doc)),
        per = gs.flatten ++ rest ∧
        (match gs with
         | [] => (processRows bs per buf).1 = [] ∧
             (processRows bs per buf).2 = buf ++ rest.flatten
         | g :: gt => (processRows bs per buf).1 =
               (buf ++ g.flatten) :: gt.map List.flatten ∧
             (processRows bs per buf).2 = rest.flatten) := by
  intro per
  induction per with
  | nil =>
    intro buf
    exact ⟨[], [], by simp, by simp [processRows]⟩
  | cons rd rest0 ih =>
    intro buf
    by_cases hflush : bs ≤ (buf ++ rd).length
    · have hflush2 : bs ≤ buf.length + rd.length := by
        simpa using hflush
      have hstep : processRows bs (rd :: rest0) buf =
          ((buf ++ rd) :: (processRows bs rest0 []).1, (processRows bs rest0 []).2) := by
        simp [processRows, hflush2]
      obtain ⟨gs2, rest2, hper2, hco⟩ := ih []
      cases gs2 with
      | nil =>
        obtain ⟨hc1, hc2⟩ := hco
        refine ⟨[[rd]], rest2, ?_, ?_, ?_⟩
        · simp [hper2]
        · rw [hstep]
          simp [hc1]
        · rw [hstep]
          simpa using hc2
      | cons g gt =>
        obtain ⟨hc1, hc2⟩ := hco
        refine ⟨[rd] :: g :: gt, rest2, ?_, ?_, ?_⟩
        · simp only [List.flatten_cons]
          rw [hper2]
          simp
        · rw [hstep]
          simp [hc1]
        · rw [hstep]
          exact hc2
    · have hflush2 : ¬ bs ≤ buf.length + rd.length := by
        simpa using hflush
      have hstep : processRows bs (rd :: rest0) buf =
          processRows bs rest0 (buf ++ rd) := by
        simp [processRows, hflush2]
      obtain ⟨gs2, rest2, hper2, hco⟩ := ih (buf ++ rd)
      cases gs2 with
      | nil =>
        obtain ⟨hc1, hc2⟩ := hco
        refine ⟨[], rd :: rest2, ?_, ?_, ?_⟩
        · simp [hper2]
        · rw [hstep]
          exact hc1
        · rw [hstep, hc2]
          simp
      | cons g gt =>
        obtain ⟨hc1, hc2⟩ := hco
        refine ⟨(rd :: g) :: gt, rest2, ?_, ?_, ?_⟩
        · simp only [List.flatten_cons]
          rw [hper2]
          simp
        · rw [hstep, hc1]
          simp
        · rw [hstep]
          exact hc2

theorem upsert_rows_atomic (hash : String → String) (df : DataFrame)
    (text_cols meta_cols id_cols : Option (List String)) (pre : String)
    (bs max_chars : Nat) (auto : Bool) :
    rowsAtomic (rowDocLists hash df text_cols meta_cols id_cols pre max_chars auto)
      (upsert_dataframe_as_docs hash (some df) text_cols meta_cols id_cols pre
        bs max_chars auto) := by
  by_cases hrows : df.rows.length = 0
  · have hrnil : df.rows = [] := List.length_eq_zero.mp hrows
    have hpe : rowDocLists hash df text_cols meta_cols id_cols pre max_chars auto = [] := by
      unfold rowDocLists
      rw [hrnil]
      rfl
    have hres : upsert_dataframe_as_docs hash (some df) text_cols meta_cols
        id_cols pre bs max_chars auto = [] := by
      simp [upsert_dataframe_as_docs, hrows]
    rw [hpe, hres]
    exact ⟨[], rfl, rfl⟩
  · have hres : upsert_dataframe_as_docs hash (some df) text_cols meta_cols
        id_cols pre bs max_chars auto =
        (processRows bs (rowDocLists hash df text_cols meta_cols id_cols pre
            max_chars auto) []).1 ++
          (if (processRows bs (rowDocLists hash df text_cols meta_cols id_cols
              pre max_chars auto) []).2.isEmpty then []
           else [(processRows bs (rowDocLists hash df text_cols meta_cols
              id_cols pre max_chars auto) []).2]) := by
      simp only [upsert_dataframe_as_docs]
      rw [if_neg hrows]
    obtain ⟨gs, rest, hper2, hco⟩ := processRows_partition bs
      (rowDocLists hash df text_cols meta_cols id_cols pre max_chars auto) []
    have hne : ∀ rd ∈ rowDocLists hash df text_cols meta_cols id_cols pre
        max_chars auto, rd ≠ [] := by
      intro rd hrd
      unfold rowDocLists at hrd
      obtain ⟨vals, hvals, rfl⟩ := List.mem_map.mp hrd
      exact rowDocs_ne_nil hash df.cols _ _ id_cols pre max_chars vals
    have hrest_ne : ∀ rd ∈ rest, rd ≠ [] := by
      intro rd hrd
      apply hne
      rw [hper2]
      exact List.mem_append_right _ hrd
    have rest_nil : rest.flatten = [] → rest = [] := by
      intro hf
      cases rest with
      | nil => rfl
      | cons r rs =>
        rw [List.flatten_cons] at hf
        exact absurd (List.append_eq_nil.mp hf).1
          (hrest_ne r (List.mem_cons_self _ _))
    cases gs with
    | nil =>
      obtain ⟨hc1, hc2⟩ := hco
      simp only [List.nil_append] at hc2
      by_cases hfnil : rest.flatten = []
      · have hrnil2 : rest = [] := rest_nil hfnil
        refine ⟨[], ?_, ?_⟩
        · rw [hper2, hrnil2]
          rfl
        · rw [hres, hc1, hc2, hfnil]
          simp
      · refine ⟨[rest], ?_, ?_⟩
        · rw [hper2]
          simp
        · rw [hres, hc1, hc2]
          rw [if_neg (by simpa [List.isEmpty_iff] using hfnil)]
          simp
    | cons g gt =>
      obtain ⟨hc1, hc2⟩ := hco
      simp only [List.nil_append] at hc1
      by_cases hfnil : rest.flatten = []
      · have hrnil2 : rest = [] := rest_nil hfnil
        refine ⟨g :: gt, ?_, ?_⟩
        · rw [hper2, hrnil2]
          simp
        · rw [hres, hc1, hc2, hfnil]
          simp
      · refine ⟨(g :: gt) ++ [rest], ?_, ?_⟩
        · rw [hper2]
          simp
        · rw [hres, hc1, hc2]
          rw [if_neg (by simpa [List.isEmpty_iff] using hfnil)]
          simp

/-- C9 counterexample (refutation of the claimed existence): for EVERY
input dataset and every parameter choice there is NO splitting — the upsert
calls always partition the per-row chunk lists into consecutive whole-row
groups, because the flush condition is only examined after a complete row
has been appended and then flushes the entire buffer. -/
theorem no_row_split_counterexample :
    ¬ ∃ (hash : String → String) (df : DataFrame)
        (text_cols meta_cols id_cols : Option (List String)) (pre : String)
        (bs max_chars : Nat) (auto : Bool),
      ¬ rowsAtomic
          (rowDocLists hash df text_cols meta_cols id_cols pre max_chars auto)
          (upsert_dataframe_as_docs hash (some df) text_cols meta_cols id_cols
            pre bs max_chars auto) := by
  rintro ⟨hash, df, tc, mc, ic, pre, bs, mx, auto, hnot⟩
  exact hnot (upsert_rows_atomic hash df tc mc ic pre bs mx auto)

/-- C9 amended: the chunks of one row are ALWAYS kept within a single
upsert call — the sequence of upsert calls is the image of a partition of
the per-row chunk lists into consecutive groups (a call may exceed
`batch_size` when a row produced several chunks, but never divides a
row). -/
theorem upsert_calls_row_atomic (hash : String → String) (df : DataFrame)
    (text_cols meta_cols id_cols : Option (List String)) (pre : String)
    (bs max_chars : Nat) (auto : Bool) :
    rowsAtomic
      (rowDocLists hash df text_cols meta_cols id_cols pre max_chars auto)
      (upsert_dataframe_as_docs hash (some df) text_cols meta_cols id_cols pre
        bs max_chars auto) :=
  upsert_rows_atomic hash df text_cols meta_cols id_cols pre bs max_chars auto

/-- C5 counterexample: when the store's QUERY call raises, the exception
propagates out of `query_namespace` (only the collection fetch is inside
the `try` block) — the function does not return the empty list. -/
theorem query_exception_counterexample :
    query_namespace Int "ns" "q" 5 none true .exn = .exn ∧
    query_namespace Int "ns" "q" 5 none true .exn ≠ .ok [] := by
  refine ⟨rfl, ?_⟩
  intro h
  have h2 : (StoreResp.exn : StoreResp (List (Hit Int))) = .ok [] := h
  cases h2

/-- C5 amended: `query_namespace` returns the empty list when the
collection fetch fails (that call is guarded by try/except) and when the
store returns missing or empty result lists (unknown or empty namespace);
per-hit id/metadata/distance entries missing from the store's possibly
short result lists default to null / empty mapping / null rather than
raising.  However, an exception raised by the store's query call itself
propagates — it is outside the try block. -/
theorem query_namespace_amended (δ : Type) (ns q : String) (k : Nat)
    (w : Option Meta) (qres : StoreResp (RawResults δ)) :
    (query_namespace δ ns q k w false qres = .ok []) ∧
    (query_namespace δ ns q k w true .exn = .exn) ∧
    (∀ results : RawResults δ,
      results.documents = none ∨ results.documents = some [[]] →
      query_namespace δ ns q k w true (.ok results) = .ok []) ∧
    (∀ results : RawResults δ, ∃ hits : List (Hit δ),
      query_namespace δ ns q k w true (.ok results) = .ok hits ∧
      hits.length = ((results.documents.getD [[]]).headD []).length ∧
      ∀ i : Nat, ∀ hi : i < hits.length,
        ((results.ids = none ∨
            ((results.ids.getD [[]]).headD []).length ≤ i) →
          (hits.get ⟨i, hi⟩).id = none) ∧
        ((((results.metadatas.getD [[]]).headD []).length ≤ i) →
          (hits.get ⟨i, hi⟩).metadata = []) ∧
        ((results.distances = none ∨
            ((results.distances.getD [[]]).headD []).length ≤ i) →
          (hits.get ⟨i, hi⟩).distance = none)) := by
  refine ⟨rfl, rfl, ?_, ?_⟩
  · intro results h
    rcases h with h | h <;> simp [query_namespace, h]
  · intro results
    refine ⟨_, rfl, by simp, ?_⟩
    intro i hi
    refine ⟨?_, ?_, ?_⟩
    · intro hcase
      simp only [List.get_eq_getElem, List.getElem_map, List.getElem_enum]
      cases hids : results.ids with
      | none =>
        simp only [List.getD_eq_getElem?_getD, List.getElem?_replicate]
        split <;> rfl
      | some v =>
        rcases hcase with hnone | hshort
        · rw [hids] at hnone
          cases hnone
        · rw [hids] at hshort
          simp only [Option.getD_some] at hshort
          simp only [List.getD_eq_getElem?_getD, List.getElem?_map,
            List.getElem?_eq_none hshort]
          rfl
    · intro hshort
      simp only [List.get_eq_getElem, List.getElem_map, List.getElem_enum]
      have hshort2 : ((results.metadatas.getD [[]]).head?.getD []).length ≤ i := by
        simpa using hshort
      simp [List.getD_eq_getElem?_getD, List.getElem?_eq_none hshort2]
    · intro hcase
      simp only [List.get_eq_getElem, List.getElem_map, List.getElem_enum]
      cases hdists : results.distances with
      | none =>
        simp only [List.getD_eq_getElem?_getD, List.getElem?_replicate]
        split <;> rfl
      | some v =>
        rcases hcase with hnone | hshort
        · rw [hdists] at hnone
          cases hnone
        · rw [hdists] at hshort
          simp only [Option.getD_some] at hshort
          simp only [List.getD_eq_getElem?_getD, List.getElem?_map,
            List.getElem?_eq_none hshort]
          rfl

/-- C5 witness: fetch failure and an all-missing result mapping both yield
the empty hit list. -/
theorem query_namespace_amended_witness :
    query_namespace Int "ns" "q" 3 none false .exn = .ok [] ∧
    query_namespace Int "ns" "q" 3 none true (.ok ⟨none, none, none, none⟩) =
      .ok [] := by
  refine ⟨(query_namespace_amended Int "ns" "q" 3 none .exn).1, ?_⟩
  exact (query_namespace_amended Int "ns" "q" 3 none .exn).2.2.1
    ⟨none, none, none, none⟩ (Or.inl rfl)
